import Mathlib

/-!
Verification of the signature/argument deduction and evaluation engine of the
objectshell repository: a shallow embedding in Lean 4 of

  * the parser-combinator library (`crates/nu-parser/src/parse/def/parse_lib.rs`),
  * the signature grammar parser (`crates/nu-parser/src/parse/def/param_flag_list.rs`),
  * the alias command and its deduction-to-signature translation
    (`crates/nu-cli/src/commands/alias.rs`),
  * the layered scope (`crates/nu-cli/src/evaluate/scope.rs`), and
  * the alias invocation binding loop (`crates/nu-cli/src/commands/run_alias.rs`),

together with theorems settling the specification's claims about them.
Machine integers (`usize`) are modelled as `Nat`; the inputs involved are far
from overflow.  `IndexMap` is modelled as an association list with
insert-overwrites-value-in-place semantics.  Code of the repository that is not
part of the provided sources (the lexer, the grammar primitives, the shape
deduction engine) is modelled from the specification; each such definition
carries a doc comment starting with `Modelled from the spec:`.
-/

namespace Nu

/-- `str::starts_with`, computed on the character list (the inputs involved
are ASCII, so character positions and byte positions coincide). -/
def strStartsWith (s pre : String) : Bool :=
  pre.toList.isPrefixOf s.toList

/-- `str::ends_with`, computed on the character list. -/
def strEndsWith (s suf : String) : Bool :=
  suf.toList.reverse.isPrefixOf s.toList.reverse

/-- A source span, `nu_source::Span`: a start and (exclusive) end offset.
The `end` field is called `stop` because `end` is a Lean keyword. -/
structure Span where
  start : Nat
  stop : Nat
deriving DecidableEq, Repr

/-- `Span::unknown()`: the span `0..0`. -/
def Span.unknown : Span := ⟨0, 0⟩

/-- `nu_source::Spanned<T>`: an item together with its source span. -/
structure Spanned (α : Type) where
  item : α
  span : Span
deriving DecidableEq, Repr

/-- The token contents produced by the lexer, `TokenContents`:
a baseline run of text or an end-of-line marker. -/
inductive TokenContents where
  | baseline (text : String)
  | eol
deriving DecidableEq, Repr

/-- A spanned token, `crate::lex::Token`. -/
structure Token where
  contents : TokenContents
  span : Span
deriving DecidableEq, Repr

/-- `Token::new`. -/
def Token.new (contents : TokenContents) (span : Span) : Token := ⟨contents, span⟩

/-- `TokenContents::is_eol`. -/
def TokenContents.is_eol : TokenContents → Bool
  | .eol => true
  | _ => false

/-- The textual rendering of a token, as used by `token_to_spanned_string`
for mismatch diagnostics. -/
def Token.text : Token → String
  | ⟨.baseline s, _⟩ => s
  | ⟨.eol, _⟩ => "\n"

/-- `nu_protocol::SyntaxShape`: the closed enumeration of argument kinds. -/
inductive SyntaxShape where
  | Any
  | String
  | Int
  | Number
  | Math
  | Block
  | Table
  | ColumnPath
  | FilePath
  | Pattern
  | Range
deriving DecidableEq, Repr

/-- `nu_protocol::PositionalType`: a mandatory or optional positional
parameter with its name and shape. -/
inductive PositionalType where
  | Mandatory (name : String) (shape : SyntaxShape)
  | Optional (name : String) (shape : SyntaxShape)
deriving DecidableEq, Repr

/-- `PositionalType::mandatory`. -/
def PositionalType.mandatory (name : String) (shape : SyntaxShape) : PositionalType :=
  .Mandatory name shape

/-- `PositionalType::optional`. -/
def PositionalType.optional (name : String) (shape : SyntaxShape) : PositionalType :=
  .Optional name shape

/-- The declared name of a positional parameter. -/
def PositionalType.name : PositionalType → String
  | .Mandatory n _ => n
  | .Optional n _ => n

/-- The declared shape of a positional parameter. -/
def PositionalType.syntax_type : PositionalType → SyntaxShape
  | .Mandatory _ s => s
  | .Optional _ s => s

/-- `nu_protocol::NamedType`: a boolean switch or an optional valued flag,
each with an optional short-flag character. -/
inductive NamedType where
  | Switch (short : Option Char)
  | Optional (short : Option Char) (shape : SyntaxShape)
deriving DecidableEq, Repr

/-- Lookup in an association list modelling `IndexMap::get`: the value of
the first (and, under the `IndexMap` key-uniqueness invariant, only)
entry with the given key. -/
def imGet {α : Type} (m : List (String × α)) (k : String) : Option α :=
  (m.find? (fun p => p.1 == k)).map (fun p => p.2)

/-- `IndexMap::insert`: if the key is present its value is replaced in
place (the entry keeps its position), otherwise the new entry is appended. -/
def imInsert {α : Type} (m : List (String × α)) (k : String) (v : α) : List (String × α) :=
  if m.any (fun p => p.1 == k) then
    m.map (fun p => if p.1 == k then (k, v) else p)
  else
    m ++ [(k, v)]

/-- `nu_protocol::Signature`: name, ordered positional parameters with
descriptions, at most one rest parameter, and named flags. -/
structure Signature where
  name : String
  positional : List (PositionalType × String)
  rest_positional : Option (SyntaxShape × String)
  named : List (String × NamedType × String)
deriving DecidableEq, Repr

/-- `Signature::new`. -/
def Signature.new (name : String) : Signature := ⟨name, [], none, []⟩

/-- `Signature::build` (delegates to `new`). -/
def Signature.build (name : String) : Signature := Signature.new name

/-- `Signature::rest`: set the single rest-parameter slot. -/
def Signature.rest (sig : Signature) (ty : SyntaxShape) (desc : String) : Signature :=
  { sig with rest_positional := some (ty, desc) }

end Nu

namespace Nu

/-! ## Scope (`crates/nu-cli/src/evaluate/scope.rs`)

`Scope` is a stack of `ScopeFrame`s held in a `Vec` (the last element is the
innermost, most recently pushed frame).  Frames are parameterized here by the
type `V` of variable values and the type `C` of commands, which the scope
treats opaquely. -/

/-- `ScopeFrame`: one lexical level holding variables, environment bindings,
commands and alias expansions (each an `IndexMap`). -/
structure ScopeFrame (V C : Type) where
  vars : List (String × V)
  env : List (String × String)
  commands : List (String × C)
  aliases : List (String × List (Spanned String))

/-- `ScopeFrame::new`: all maps empty. -/
def ScopeFrame.new (V C : Type) : ScopeFrame V C := ⟨[], [], [], []⟩

/-- `ScopeFrame::get_command_names`: the keys of the frame's command map in
insertion order. -/
def ScopeFrame.get_command_names {V C : Type} (f : ScopeFrame V C) : List String :=
  f.commands.map (fun p => p.1)

/-- The frame stack of a `Scope` (`Vec<ScopeFrame>`, last = innermost). -/
abbrev Scope (V C : Type) : Type := List (ScopeFrame V C)

/-- Apply `f` to the topmost (last) frame, as `frames.lock().last_mut()`
does; a no-op on an empty stack (`if let Some(frame) = ... last_mut()`). -/
def modifyLast {V C : Type} (s : Scope V C) (f : ScopeFrame V C → ScopeFrame V C) :
    Scope V C :=
  match s.getLast? with
  | none => s
  | some top => s.dropLast ++ [f top]

/-- `Scope::get_var`: scan frames innermost-first (`iter().rev()`), return
the first binding found. -/
def Scope.get_var {V C : Type} (s : Scope V C) (name : String) : Option V :=
  s.reverse.findSome? (fun frame => imGet frame.vars name)

/-- `Scope::add_var`: insert into the topmost frame's variable map. -/
def Scope.add_var {V C : Type} (s : Scope V C) (name : String) (value : V) : Scope V C :=
  modifyLast s (fun frame => { frame with vars := imInsert frame.vars name value })

/-- `ParserScope::enter_scope` for `Scope`: push a fresh frame. -/
def Scope.enter_scope {V C : Type} (s : Scope V C) : Scope V C :=
  s ++ [ScopeFrame.new V C]

/-- `ParserScope::exit_scope` for `Scope`: pop the topmost frame. -/
def Scope.exit_scope {V C : Type} (s : Scope V C) : Scope V C :=
  s.dropLast

/-- `Scope::get_vars`: walk frames innermost-first and insert every binding
into one merged map, so a later (outer) frame's insert overwrites an inner
frame's value. -/
def Scope.get_vars {V C : Type} (s : Scope V C) : List (String × V) :=
  s.reverse.foldl
    (fun output frame =>
      frame.vars.foldl (fun output p => imInsert output p.1 p.2) output)
    []

/-- `Scope::get_env_vars`: same walk as `get_vars`, over the `env` maps. -/
def Scope.get_env_vars {V C : Type} (s : Scope V C) : List (String × String) :=
  s.reverse.foldl
    (fun output frame =>
      frame.env.foldl (fun output p => imInsert output p.1 p.2) output)
    []

/-- Consecutive deduplication, `Vec::dedup`: of each run of equal adjacent
elements only one is kept. -/
def dedupConsec : List String → List String
  | [] => []
  | [a] => [a]
  | a :: b :: rest =>
    if a == b then dedupConsec (b :: rest) else a :: dedupConsec (b :: rest)

/-- Lexicographic order on character lists by character code — on the ASCII
command names involved this coincides with the byte-wise lexicographic
order of Rust's `Ord for String`. -/
def charListLe : List Char → List Char → Bool
  | [], _ => true
  | _ :: _, [] => false
  | a :: as, b :: bs =>
    if a.toNat < b.toNat then true
    else if b.toNat < a.toNat then false
    else charListLe as bs

/-- The string order used by `Vec::sort`. -/
def strLe (a b : String) : Bool :=
  charListLe a.toList b.toList

/-- Insert into a sorted list in front of the first element not below the
inserted one. -/
def insertSorted (a : String) : List String → List String
  | [] => [a]
  | b :: rest => if strLe a b then a :: b :: rest else b :: insertSorted a rest

/-- `Vec::sort` on strings: ascending stable sort, realized as insertion
sort (the sorted rearrangement of a list of plain strings is unique, so any
correct sort has this exact output). -/
def sortStrings (l : List String) : List String :=
  l.foldr insertSorted []

/-- `Scope::get_command_names`: concatenate all frames' command names in
stack order (outermost first, `iter()`), then `dedup()` (consecutive
duplicates only), then `sort()`. -/
def Scope.get_command_names {V C : Type} (s : Scope V C) : List String :=
  let names := s.foldl (fun names frame => names ++ frame.get_command_names) []
  sortStrings (dedupConsec names)

/-! ## Parser-combinator library (`crates/nu-parser/src/parse/def/parse_lib.rs`)

The Rust `Parse` trait, whose implementors are zero-sized types, is modelled
as a structure bundling the `parse` function with `default_error_value` and
`display_name`; the generic combinator structs become functions on parsers. -/

/-- `nu_errors::ParseError`, restricted to the constructors this subsystem
produces: a grammar mismatch carrying the expected production and the
offending token's text and span, and an unexpected end of input. -/
inductive ParseError where
  | mismatch (expected : String) (actual : Spanned String)
  | unexpected_eof (expected : String) (span : Span)
deriving DecidableEq, Repr

/-- The `Parse` trait: `parse(tokens, i) -> (Output, usize, Option<ParseError>)`
together with `default_error_value()` and `display_name()`. -/
structure Parser (α : Type) where
  run : List Token → Nat → α × Nat × Option ParseError
  default_error_value : α
  display_name : String

/-- `Expect<Value>`: if a token remains, let the wrapped parser parse it;
otherwise error out with an unexpected-end-of-input diagnostic spanning the
last seen token (or the unknown span for an empty stream), consuming
nothing. -/
def Expect {α : Type} (p : Parser α) : Parser α where
  run := fun tokens i =>
    if i < tokens.length then
      p.run tokens i
    else
      let last_span :=
        match tokens.getLast? with
        | some last_token => last_token.span
        | none => Span.unknown
      (p.default_error_value, i, some (.unexpected_eof p.display_name last_span))
  default_error_value := p.default_error_value
  display_name := p.display_name

/-- `Maybe<Value>`: attempt the wrapped parser; on its error rewind to the
original index and succeed with `none`, swallowing the error. -/
def Maybe {α : Type} (p : Parser α) : Parser (Option α) where
  run := fun tokens i =>
    let (v, new_i, error) := p.run tokens i
    if error.isSome then (none, i, none) else (some v, new_i, error)
  default_error_value := some p.default_error_value
  display_name := p.display_name ++ "?"

/-- `AndThen<First, Second>`: run both parsers in sequence (the second from
the first's returned index, regardless of its error) and report the first
error encountered. -/
def AndThen {α β : Type} (p : Parser α) (q : Parser β) : Parser (α × β) where
  run := fun tokens i =>
    let (first, i1, err_first) := p.run tokens i
    let (second, i2, err_second) := q.run tokens i1
    ((first, second), i2, err_first.or err_second)
  default_error_value := (p.default_error_value, q.default_error_value)
  display_name := p.display_name ++ " >> " ++ q.display_name

/-- `IfSuccessThen<Try, AndThen>`: parse `Try` via `Maybe`; if it matched,
the continuation becomes mandatory via `Expect`; if it did not, skip the
whole production with no error and no consumption. -/
def IfSuccessThen {α β : Type} (tryP : Parser α) (thenP : Parser β) :
    Parser (Option (α × β)) where
  run := fun tokens i =>
    let (try_, new_i, err_try) := (Maybe tryP).run tokens i
    match try_ with
    | some try_v =>
      let (and_then, new_i2, err_second) := (Expect thenP).run tokens new_i
      (some (try_v, and_then), new_i2, err_try.or err_second)
    | none => (none, i, none)
  default_error_value := some (tryP.default_error_value, thenP.default_error_value)
  display_name := "(" ++ tryP.display_name ++ " >> " ++ thenP.display_name ++ ")?"

/-- `Discard<Value>`: run the wrapped parser, keep its index and error,
drop its value. -/
def Discard {α : Type} (p : Parser α) : Parser Unit where
  run := fun tokens i =>
    let (_, i', err) := p.run tokens i
    ((), i', err)
  default_error_value := ()
  display_name := p.display_name

/-- Modelled from the spec: `And2` of the (absent) `lib_code` module is the
sequential composition `AndThen`. -/
def And2 {α β : Type} (p : Parser α) (q : Parser β) : Parser (α × β) :=
  AndThen p q

/-- Modelled from the spec: `And3` of the (absent) `lib_code` module is the
three-way sequential composition (`α × β × γ` is right-nested, so this is
exactly `AndThen` twice). -/
def And3 {α β γ : Type} (p : Parser α) (q : Parser β) (r : Parser γ) :
    Parser (α × β × γ) :=
  AndThen p (AndThen q r)

/-- Modelled from the spec: `WithSpan` of the (absent) `lib_code` module
wraps a parser's output with the span of the tokens it consumed (the
unknown span when it consumed none).  The span is only stored in the
`Parameter`/`Flag` records and does not influence any claim. -/
def WithSpan {α : Type} (p : Parser α) : Parser (Spanned α) where
  run := fun tokens i =>
    let (v, i', err) := p.run tokens i
    let span :=
      if h : i < tokens.length ∧ i' - 1 < tokens.length ∧ i < i' then
        Span.mk (tokens.get ⟨i, h.1⟩).span.start (tokens.get ⟨i' - 1, h.2.1⟩).span.stop
      else Span.unknown
    (⟨v, span⟩, i', err)
  default_error_value := ⟨p.default_error_value, Span.unknown⟩
  display_name := p.display_name

/-! ## Grammar primitives

The module `parse/def/primitives.rs` is not part of the provided sources;
each primitive below is modelled from the spec's grammar
(`name (: type)? (?)? item_end`, `--name (-c)? (: type)? item_end`,
`...rest (: type)? item_end`) and from the base-`Parse` contract: on failure
a primitive returns its default value, the original index and a mismatch
diagnostic; a primitive checks for remaining input itself (behaving as its
own `Expect`), producing an unexpected-end-of-input error like `Expect`
does. -/

/-- Modelled from the spec: a checked single-token primitive parser — accept
and consume the current token when the classifier returns a value, report a
mismatch (consuming nothing) otherwise, and an unexpected end of input when
no token remains. -/
def checkedPrim {α : Type} (name : String) (default : α) (f : Token → Option α) :
    Parser α where
  run := fun tokens i =>
    if h : i < tokens.length then
      let token := tokens.get ⟨i, h⟩
      match f token with
      | some v => (v, i + 1, none)
      | none => (default, i, some (.mismatch name ⟨token.text, token.span⟩))
    else
      let last_span :=
        match tokens.getLast? with
        | some last_token => last_token.span
        | none => Span.unknown
      (default, i, some (.unexpected_eof name last_span))
  default_error_value := default
  display_name := name

/-- Modelled from the spec: `ParameterName` — a plain parameter name, i.e.
any baseline token. -/
def parameterName : Parser String :=
  checkedPrim "parameter name" ""
    (fun t => match t.contents with | .baseline s => some s | _ => none)

/-- Modelled from the spec: `OptionalModifier` — the `?` marker. -/
def optionalModifier : Parser Unit :=
  checkedPrim "optional modifier" ()
    (fun t => match t.contents with | .baseline s => if s = "?" then some () else none | _ => none)

/-- Modelled from the spec: `DoublePoint` — the `:` marker introducing a
type. -/
def doublePoint : Parser Unit :=
  checkedPrim "double point" ()
    (fun t => match t.contents with | .baseline s => if s = ":" then some () else none | _ => none)

/-- Modelled from the spec: `Comma` — the `,` item separator. -/
def comma : Parser Unit :=
  checkedPrim "comma" ()
    (fun t => match t.contents with | .baseline s => if s = "," then some () else none | _ => none)

/-- Modelled from the spec: `EOL` — an end-of-line token. -/
def eolToken : Parser Unit :=
  checkedPrim "eol" ()
    (fun t => match t.contents with | .eol => some () | _ => none)

/-- Modelled from the spec: `Comment` — a `#`-prefixed baseline token; its
text (after the `#`) becomes the item's description. -/
def commentText : Parser String :=
  checkedPrim "comment" ""
    (fun t => match t.contents with
      | .baseline s => if strStartsWith s "#" then some (s.drop 1) else none
      | _ => none)

/-- Modelled from the spec: `Shape` — a type name written in a signature,
mapped to its `SyntaxShape` (`path` names the file-path shape). -/
def shapeName : Parser SyntaxShape :=
  checkedPrim "shape" SyntaxShape.Any
    (fun t => match t.contents with
      | .baseline s =>
        if s = "any" then some SyntaxShape.Any
        else if s = "string" then some SyntaxShape.String
        else if s = "int" then some SyntaxShape.Int
        else if s = "number" then some SyntaxShape.Number
        else if s = "path" then some SyntaxShape.FilePath
        else if s = "table" then some SyntaxShape.Table
        else if s = "block" then some SyntaxShape.Block
        else if s = "pattern" then some SyntaxShape.Pattern
        else if s = "range" then some SyntaxShape.Range
        else none
      | _ => none)

/-- Modelled from the spec: `FlagName` — a `--`-prefixed baseline token;
yields the name after the `--`.  A baseline that does not start with `--`
(for example a bare shorthand `-x`) is a mismatch and consumes nothing. -/
def flagName : Parser String :=
  checkedPrim "long flag name" ""
    (fun t => match t.contents with
      | .baseline s => if strStartsWith s "--" then some (s.drop 2) else none
      | _ => none)

/-- Modelled from the spec: `FlagShortName` — a baseline token of the form
`(-c)`; yields the shorthand character. -/
def flagShortName : Parser Char :=
  checkedPrim "short flag name" 'f'
    (fun t => match t.contents with
      | .baseline s =>
        match s.toList with
        | ['(', '-', c, ')'] => some c
        | _ => none
      | _ => none)

/-- Modelled from the spec: `RestName` — a `...`-prefixed baseline token;
yields the name after the `...`. -/
def restName : Parser String :=
  checkedPrim "rest name" ""
    (fun t => match t.contents with
      | .baseline s => if strStartsWith s "..." then some (s.drop 3) else none
      | _ => none)

/-! ## Signature grammar parser (`crates/nu-parser/src/parse/def/param_flag_list.rs`) -/

/-- `OptionalType`: `(: type)?` — if a `:` was seen a shape must follow
(`IfSuccessThen`); otherwise nothing is consumed and no error raised. -/
def OptionalType : Parser (Option SyntaxShape) where
  run := fun tokens i =>
    match (IfSuccessThen doublePoint shapeName).run tokens i with
    | (some (_, shape), i_new, err) => (some shape, i_new, err)
    | (none, _, _) => (none, i, none)
  default_error_value := some SyntaxShape.Any
  display_name := "type"

/-- `ItemEnd`: `(,)? (#comment)? (eol)?` — yields the optional comment. -/
def ItemEnd : Parser (Option String) where
  run := fun tokens i =>
    let ((_, (comment, _)), i', err) :=
      (And2 (Maybe comma) (And2 (Maybe commentText) (Maybe eolToken))).run tokens i
    (comment, i', err)
  default_error_value := none
  display_name := "item end"

/-- The `Parameter` record of `param_flag_list.rs`. -/
structure Parameter where
  pos_type : PositionalType
  desc : Option String
  span : Span
deriving DecidableEq, Repr

/-- `Parameter::error()`: the default value substituted when parsing a
parameter failed outright. -/
def Parameter.error : Parameter :=
  ⟨PositionalType.optional "Internal Error" SyntaxShape.Any,
   some "Wanted to parse a parameter, but no input present. Please report this error!",
   Span.unknown⟩

/-- The `From` conversion assembling a `Parameter`: an omitted type defaults
to `Any`; the `?` modifier selects `PositionalType::Optional`, its absence
`PositionalType::Mandatory`. -/
def Parameter.from
    (x : Spanned (String × Option Unit × Option SyntaxShape) × Option String) :
    Parameter :=
  let spanned_param := x.1
  let comment := x.2
  let span := spanned_param.span
  let (name, optional, type_) := spanned_param.item
  let type_ := type_.getD SyntaxShape.Any
  let pos_type :=
    if optional.isSome then PositionalType.optional name type_
    else PositionalType.mandatory name type_
  ⟨pos_type, comment, span⟩

/-- `Parameter`'s `Parse` implementation:
`name (?)? (: type)? item_end` via the combinators, then the `From`
conversion. -/
def Parameter.parse : Parser Parameter where
  run := fun tokens i =>
    let (v, i', err) :=
      (And2 (WithSpan (And3 parameterName (Maybe optionalModifier) OptionalType))
        ItemEnd).run tokens i
    (Parameter.from v, i', err)
  default_error_value := Parameter.error
  display_name := "parameter item"

/-- The `Flag` record of `param_flag_list.rs`. -/
structure Flag where
  long_name : String
  named_type : NamedType
  desc : Option String
  span : Span
deriving DecidableEq, Repr

/-- `Flag::error()`. -/
def Flag.error : Flag :=
  ⟨"Internal Error", NamedType.Switch none,
   some "Wanted to parse a flag, but no input present. Please report this error!",
   Span.unknown⟩

/-- The `From` conversion assembling a `Flag`: without a type the flag is a
switch, with a type an optional valued flag. -/
def Flag.from
    (x : Spanned (String × Option Char × Option SyntaxShape) × Option String) :
    Flag :=
  let spanned_flag := x.1
  let comment := x.2
  let span := spanned_flag.span
  let (name, shortform, type_) := spanned_flag.item
  let named_type :=
    match type_ with
    | some shape => NamedType.Optional shortform shape
    | none => NamedType.Switch shortform
  ⟨name, named_type, comment, span⟩

/-- `Flag`'s `Parse` implementation:
`--name (-c)? (: type)? item_end` via the combinators, then the `From`
conversion. -/
def Flag.parse : Parser Flag where
  run := fun tokens i =>
    let (v, i', err) :=
      (And2 (WithSpan (And3 flagName (Maybe flagShortName) OptionalType))
        ItemEnd).run tokens i
    (Flag.from v, i', err)
  default_error_value := Flag.error
  display_name := "flag item"

/-- `Rest`'s `Parse` implementation: `...rest (: type)? item_end`, yielding
the rest shape (default `Any`) and its description (the comment). -/
def Rest.parse : Parser (SyntaxShape × String) where
  run := fun tokens i =>
    let ((_, (type_, comment)), i', err) :=
      (And2 restName (And2 OptionalType ItemEnd)).run tokens i
    ((type_.getD SyntaxShape.Any, comment.getD ""), i', err)
  default_error_value := (SyntaxShape.Any, "")
  display_name := "Rest item"

/-- `is_rest`: true when the token is a `...`-prefixed baseline. -/
def is_rest (token : Token) : Bool :=
  match token.contents with
  | .baseline item => strStartsWith item "..."
  | _ => false

/-- `is_flag`: true for short or longform flags (`-`-prefixed baseline). -/
def is_flag (token : Token) : Bool :=
  match token.contents with
  | .baseline item => strStartsWith item "-"
  | _ => false

/-- `to_signature`: positional parameters keep declaration order, flags go
into the named map, the rest slot is set last. -/
def to_signature (name : String) (params : List Parameter) (flags : List Flag)
    (rest : Option (SyntaxShape × String)) : Signature :=
  let sign := Signature.new name
  let sign := { sign with
    positional := params.map (fun (param : Parameter) => (param.pos_type, param.desc.getD "")) }
  let sign := { sign with
    named := flags.foldl
      (fun named (flag : Flag) =>
        imInsert named flag.long_name (flag.named_type, flag.desc.getD ""))
      sign.named }
  { sign with rest_positional := rest }

/-- The `make_new_token` closure of `lex_split_baseline_tokens_on`: emit the
accumulated run (when non-empty) ending at `token_new_end`, then the
terminator character (when present) as its own one-character baseline
token. -/
def make_new_token (token_new : String) (token_new_end : Nat)
    (terminator_char : Option Char) : List Token :=
  let stop := token_new_end
  let start := stop - token_new.length
  let result :=
    if token_new.isEmpty then []
    else [Token.new (.baseline token_new) (Span.mk start stop)]
  match terminator_char with
  | some ch => result ++ [Token.new (.baseline (String.mk [ch])) (Span.mk stop (stop + 1))]
  | none => result

/-- The character walk inside `lex_split_baseline_tokens_on` over one
baseline's characters (with their index), splitting at the extra terminal
characters.  Byte offsets coincide with character offsets on the ASCII
signature text. -/
def splitBaselineGo (extra : List Char) (token_offset : Nat) :
    List Char → Nat → String → List Token
  | [], i, current => make_new_token current (i + token_offset) none
  | c :: cs, i, current =>
    if extra.contains c then
      make_new_token current (i + token_offset) (some c) ++
        splitBaselineGo extra token_offset cs (i + 1) ""
    else
      splitBaselineGo extra token_offset cs (i + 1) (current.push c)

/-- `lex_split_baseline_tokens_on`: split every baseline token at the given
terminal characters, each terminal becoming its own token. -/
def lex_split_baseline_tokens_on (tokens : List Token)
    (extra_baseline_terminal_tokens : List Char) : List Token :=
  tokens.foldl
    (fun result token =>
      match token.contents with
      | .baseline base =>
        result ++ splitBaselineGo extra_baseline_terminal_tokens token.span.start
          base.toList 0 ""
      | _ => result ++ [token])
    []

/-- `lex_split_shortflag_from_longflag`: split a baseline token at its first
`(` when `(` is not the first character, so `--flag(-f)` becomes `--flag`
and `(-f)`. -/
def lex_split_shortflag_from_longflag (tokens : List Token) : List Token :=
  tokens.foldl
    (fun result token =>
      match token.contents with
      | .baseline base =>
        match base.toList.findIdx? (fun c => c = '(') with
        | some paren_start =>
          if paren_start ≠ 0 then
            let paren_span_i := token.span.start + paren_start
            result ++
              [Token.new (.baseline (String.mk (base.toList.take paren_start)))
                (Span.mk token.span.start paren_span_i),
               Token.new (.baseline (String.mk (base.toList.drop paren_start)))
                (Span.mk paren_span_i token.span.stop)]
          else result ++ [token]
        | none => result ++ [token]
      | _ => result ++ [token])
    []

/-- Modelled from the spec: the character walk of the base lexer (the `lex`
function of `crates/nu-parser/src/lex.rs` is not part of the provided
sources) — baseline runs are separated by blanks, a newline emits an
end-of-line token, and spans record absolute offsets. -/
def lexGo : List Char → Nat → String → Nat → List Token
  | [], pos, current, current_start =>
    if current.isEmpty then []
    else [Token.new (.baseline current) (Span.mk current_start pos)]
  | c :: cs, pos, current, current_start =>
    if c = '\n' then
      (if current.isEmpty then []
       else [Token.new (.baseline current) (Span.mk current_start pos)]) ++
      [Token.new .eol (Span.mk pos (pos + 1))] ++ lexGo cs (pos + 1) "" (pos + 1)
    else if c = ' ' ∨ c = '\t' then
      (if current.isEmpty then []
       else [Token.new (.baseline current) (Span.mk current_start pos)]) ++
      lexGo cs (pos + 1) "" (pos + 1)
    else
      lexGo cs (pos + 1) (current.push c) current_start

/-- Modelled from the spec: the base lexer (an external collaborator,
assumed correct): raw text to spanned baseline/end-of-line tokens, starting
at the given absolute offset. -/
def lex (input : String) (span_offset : Nat) : List Token × Option ParseError :=
  (lexGo input.toList span_offset "" span_offset, none)

/-- The token stream `parse_signature` drives: the interior is lexed at
offset `span.start + 1`, then split on `,`/`:`/`?`, then split before a
non-leading `(`. -/
def sigTokens (signature_vec : Spanned String) : List Token :=
  let chars := signature_vec.item.toList
  let string := String.mk ((chars.drop 1).dropLast)
  let (tokens, _) := lex string (signature_vec.span.start + 1)
  let tokens := lex_split_baseline_tokens_on tokens [',', ':', '?']
  lex_split_shortflag_from_longflag tokens

/-- The error recorded before the walk begins: a mismatch when the enclosing
`[`/`]` brackets are absent (`chars.next()` / `chars.next_back()`), combined
with any lexer error (none in this model). -/
def sigInitialErr (signature_vec : Spanned String) : Option ParseError :=
  let chars := signature_vec.item.toList
  let first := chars.head?
  let last := if 2 ≤ chars.length then chars.getLast? else none
  let err : Option ParseError :=
    match first, last with
    | some '[', some ']' => none
    | _, _ => some (.mismatch "definition signature" ⟨signature_vec.item, signature_vec.span⟩)
  err.or (lex (String.mk ((chars.drop 1).dropLast)) (signature_vec.span.start + 1)).2

/-- The `while i < tokens.len()` walk of `parse_signature`: skip leading
end-of-line tokens, dispatch on the classification of the current token, and
accumulate parameters, flags, the rest slot and the first error.  The Rust
loop relies on every dispatched sub-parser advancing the cursor; an
iteration that does not advance repeats identically forever (the parsers
are deterministic and never move the cursor backwards), which is modelled
by returning `none`.  The fuel argument only makes the recursion structural:
the top-level entry supplies `tokens.length + 1`, which an always-advancing
cursor starting at `0` can never exhaust. -/
def sigLoopGo (tokens : List Token) :
    Nat → Nat → List Parameter → List Flag → Option (SyntaxShape × String) →
    Option ParseError →
    Option (List Parameter × List Flag × Option (SyntaxShape × String) × Option ParseError)
  | 0, _, _, _, _, _ => none
  | fuel + 1, i, parameters, flags, rest, err =>
    if h : i < tokens.length then
      let token := tokens.get ⟨i, h⟩
      if token.contents.is_eol then
        sigLoopGo tokens fuel (i + 1) parameters flags rest err
      else if is_flag token then
        let (flag, i_new, error) := Flag.parse.run tokens i
        if i < i_new then
          sigLoopGo tokens fuel i_new parameters (flags ++ [flag]) rest (err.or error)
        else none
      else if is_rest token then
        let (rest_, i_new, error) := Rest.parse.run tokens i
        if i < i_new then
          sigLoopGo tokens fuel i_new parameters flags (some rest_) (err.or error)
        else none
      else
        let (parameter, i_new, error) := Parameter.parse.run tokens i
        if i < i_new then
          sigLoopGo tokens fuel i_new (parameters ++ [parameter]) flags rest (err.or error)
        else none
    else some (parameters, flags, rest, err)

/-- `parse_signature`: check the enclosing brackets, lex and repair the
token stream, drive the walk, and assemble the best-effort signature with
the first recorded error.  `none` models divergence of the Rust walk. -/
def parse_signature (name : String) (signature_vec : Spanned String) :
    Option (Signature × Option ParseError) :=
  let tokens := sigTokens signature_vec
  match sigLoopGo tokens (tokens.length + 1) 0 [] [] none (sigInitialErr signature_vec) with
  | none => none
  | some (parameters, flags, rest, err) =>
    some (to_signature name parameters flags rest, err)

/-- Specification-side companion of the walk (following §4.2's error policy
wording, not a source function): the list of every sub-parser error
encountered during the walk, in walk order.  Used to state that the error
`parse_signature` reports is the first one encountered. -/
def sigWalkErrors (tokens : List Token) : Nat → Nat → Option (List ParseError)
  | 0, _ => none
  | fuel + 1, i =>
    if h : i < tokens.length then
      let token := tokens.get ⟨i, h⟩
      if token.contents.is_eol then
        sigWalkErrors tokens fuel (i + 1)
      else if is_flag token then
        let (_, i_new, error) := Flag.parse.run tokens i
        if i < i_new then
          (sigWalkErrors tokens fuel i_new).map (fun l => error.toList ++ l)
        else none
      else if is_rest token then
        let (_, i_new, error) := Rest.parse.run tokens i
        if i < i_new then
          (sigWalkErrors tokens fuel i_new).map (fun l => error.toList ++ l)
        else none
      else
        let (_, i_new, error) := Parameter.parse.run tokens i
        if i < i_new then
          (sigWalkErrors tokens fuel i_new).map (fun l => error.toList ++ l)
        else none
    else some []

/-! ## Alias definition (`crates/nu-cli/src/commands/alias.rs`) -/

/-- `VarDeclaration` (`commands/deduction.rs`): one free variable declared in
an alias's bracketed parameter list. -/
structure VarDeclaration where
  name : String
  is_var_arg : Bool
  span : Span
deriving DecidableEq, Repr

/-- `VarShapeDeduction` (`commands/deduction.rs`): one hypothesis about a
variable's shape, tagged with the spans that produced it. -/
structure VarShapeDeduction where
  deduction : SyntaxShape
  deducted_from : List Span
  many_of_shapes : Bool
deriving DecidableEq, Repr

/-- `is_var_arg`: a variable name declares a var-arg when it ends in `...`. -/
def is_var_arg (var_name : String) : Bool :=
  strEndsWith var_name "..."

/-- `var_arg_name`: strip the trailing `...` (`truncate(len - 3)`). -/
def var_arg_name (var_name : String) : String :=
  var_name.dropRight 3

/-- Resolve one `(VarDeclaration, Option<Vec<VarShapeDeduction>>)` entry as
the closure inside `DeductionToSignature::get` does: a variable without
deductions gets the catch-all `Any` default; otherwise a recorded `Any`
deduction wins, then a recorded `Math` deduction, then the first recorded
deduction (`deduc[0]`, which panics in Rust when the recorded list is
empty — modelled as `none`). -/
def resolveEntry (e : VarDeclaration × Option (List VarShapeDeduction)) :
    Option (VarDeclaration × VarShapeDeduction) :=
  match e.2 with
  | none => some (e.1, ⟨SyntaxShape.Any, [Span.unknown], false⟩)
  | some deduc =>
    match deduc.find? (fun d => d.deduction == SyntaxShape.Any) with
    | some any_shape => some (e.1, any_shape)
    | none =>
      match deduc.find? (fun d => d.deduction == SyntaxShape.Math) with
      | some math_shape => some (e.1, math_shape)
      | none =>
        match deduc.head? with
        | some first => some (e.1, first)
        | none => none

/-- The `map`/`collect` over all deduction entries in
`DeductionToSignature::get`; `none` propagates the `deduc[0]` panic. -/
def resolveAll : List (VarDeclaration × Option (List VarShapeDeduction)) →
    Option (List (VarDeclaration × VarShapeDeduction))
  | [] => some []
  | e :: rest =>
    match resolveEntry e, resolveAll rest with
    | some r, some rs => some (r :: rs)
    | _, _ => none

/-- `DeductionToSignature::get`: build the alias signature from the resolved
deductions — every variable becomes a mandatory positional parameter, and if
the last declared variable is a var-arg its positional entry is popped and
moved into the signature's rest slot (with the variable name stored as the
rest description).  `none` models the Rust panic on an empty recorded
deduction list. -/
def DeductionToSignature.get (cmd_name : String)
    (deductions : List (VarDeclaration × Option (List VarShapeDeduction))) :
    Option Signature :=
  match resolveAll deductions with
  | none => none
  | some resolved =>
    let sig := Signature.build cmd_name
    let sig := { sig with
      positional := resolved.map
        (fun rd => (PositionalType.mandatory rd.1.name rd.2.deduction, "")) }
    match resolved.getLast? with
    | some last_arg =>
      if last_arg.1.is_var_arg then
        some (Signature.rest { sig with positional := sig.positional.dropLast }
          last_arg.2.deduction last_arg.1.name)
      else some sig
    | none => some sig

/-- A labeled `ShellError` (`ShellError::labeled_error`). -/
inductive ShellError where
  | labeled (msg : String) (label : String) (span : Span)
deriving DecidableEq, Repr

/-- One element of the alias `args` list: `Value::as_string()` (absent for a
non-string value) together with the value's tag span. -/
structure ValueItem where
  as_string : Option String
  span : Span
deriving DecidableEq, Repr

/-- The argument-processing loop of `alias`: walk the `args` list with its
index, reject a non-string item (`Expected a string`) and a var-arg that is
not in last position (`Var-args variables are only allowed as the last
argument!`), and otherwise collect the `$`-prefixed `VarDeclaration`s. -/
def processArgsGo (orig_len : Nat) : Nat → List ValueItem →
    Except ShellError (List VarDeclaration)
  | _, [] => .ok []
  | idx, item :: rest =>
    match item.as_string with
    | some var_name =>
      if is_var_arg var_name then
        if idx + 1 ≠ orig_len then
          .error (.labeled "Var-args variables are only allowed as the last argument!"
            "Var-arg" item.span)
        else
          (processArgsGo orig_len (idx + 1) rest).map
            (fun ds => ⟨"$" ++ var_arg_name var_name, true, item.span⟩ :: ds)
      else
        (processArgsGo orig_len (idx + 1) rest).map
          (fun ds => ⟨"$" ++ var_name, false, item.span⟩ :: ds)
    | none => .error (.labeled "Expected a string" "expected a string" item.span)

/-- The full argument-processing pass of `alias` over the declared list. -/
def processArgs (list : List ValueItem) : Except ShellError (List VarDeclaration) :=
  processArgsGo list.length 0 list

/-- The command action emitted by a successful alias definition
(`CommandAction::AddAlias`; the block is not relevant to the claims). -/
inductive CommandAction where
  | AddAlias (sig : Signature)
deriving DecidableEq, Repr

/-- The core of the `alias` command (the `--save` persistence branch is out
of the selected core): process the declared parameter list, run the shape
deduction pass (`VarSyntaxShapeDeductor::infer_vars` is not part of the
provided sources, so it is passed in as a function), translate the result to
a `Signature` and emit `AddAlias`.  The outer `none` models the panic
inside `DeductionToSignature::get`. -/
def aliasCmd (name : String) (list : List ValueItem)
    (infer : List VarDeclaration →
      Except ShellError (List (VarDeclaration × Option (List VarShapeDeduction)))) :
    Option (Except ShellError CommandAction) :=
  match processArgs list with
  | .error e => some (.error e)
  | .ok processed_args =>
    match infer processed_args with
    | .error e => some (.error e)
    | .ok inferred_shapes =>
      match DeductionToSignature.get name inferred_shapes with
      | some signature => some (.ok (.AddAlias signature))
      | none => none

/-! ## Alias invocation (`crates/nu-cli/src/commands/run_alias.rs`)

The positional-binding section of `AliasCommand::run`, for an opaque value
type `V`.  `UntaggedValue::Table` is abstracted as a constructor function
`mkTable`; tags do not influence which variables get bound. -/

/-- The binding loop of `AliasCommand::run`: for each signature positional
(with its index) read `positional[idx]` — an unchecked index whose
out-of-bounds panic is modelled as `none` — and bind the parameter name to
that argument in the scope's variable map. -/
def bindLoopGo {V : Type} (positional : List V) :
    List (PositionalType × String) → Nat → List (String × V) →
    Option (List (String × V))
  | [], _, vars => some vars
  | (pos_type, _) :: rest, idx, vars =>
    match positional.get? idx with
    | some arg => bindLoopGo positional rest (idx + 1) (imInsert vars pos_type.name arg)
    | none => none

/-- The positional-binding section of `AliasCommand::run` when the evaluated
call supplies a positional list: run the binding loop, then, if the
signature has a rest parameter and arguments remain, bind the rest variable
(named by the rest description) to the table of the remaining arguments. -/
def AliasCommand.bindPositional {V : Type} (sig : Signature) (positional : List V)
    (mkTable : List V → V) (vars : List (String × V)) :
    Option (List (String × V)) :=
  match bindLoopGo positional sig.positional 0 vars with
  | none => none
  | some vars =>
    match sig.rest_positional with
    | some (_, desc) =>
      let var_arg_idx := sig.positional.length
      if var_arg_idx < positional.length then
        some (imInsert vars desc (mkTable (positional.drop var_arg_idx)))
      else some vars
    | none => some vars

/-! ## Statement vocabulary

Definitions used only to state properties (not translations of source
functions). -/

/-- A parser is cursor-monotone: from a valid index it returns an index
that did not move backwards and is still valid. -/
def Monotone {α : Type} (p : Parser α) : Prop :=
  ∀ tokens i, i ≤ tokens.length →
    i ≤ (p.run tokens i).2.1 ∧ (p.run tokens i).2.1 ≤ tokens.length

/-- A parser consumes nothing when it errors (the base `Parse` contract:
on failure the original index is returned). -/
def ErrStable {α : Type} (p : Parser α) : Prop :=
  ∀ tokens i, (p.run tokens i).2.2.isSome → (p.run tokens i).2.1 = i

/-- The binding of a name looked up outermost-first (first frame of the
stack wins), used to state what the merged `get_vars` map contains. -/
def outermostVar {V C : Type} (s : Scope V C) (name : String) : Option V :=
  s.findSome? (fun frame => imGet frame.vars name)

/-- Outermost-first lookup over the environment maps. -/
def outermostEnvVar {V C : Type} (s : Scope V C) (name : String) : Option String :=
  s.findSome? (fun frame => imGet frame.env name)

/-- The shape the spec's precedence policy picks from a non-empty recorded
deduction list: `Any` if any recorded deduction is `Any`, else `Math` if
any is `Math`, else the first recorded deduction (the `getD` default is
never reached on a non-empty list). -/
def precedenceShape (deduc : List VarShapeDeduction) : SyntaxShape :=
  if deduc.any (fun d => d.deduction == SyntaxShape.Any) then SyntaxShape.Any
  else if deduc.any (fun d => d.deduction == SyntaxShape.Math) then SyntaxShape.Math
  else ((deduc.head?).map (fun d => d.deduction)).getD SyntaxShape.Any

/-- The value of the last entry with the given key, i.e. the binding that
survives when a list of entries is inserted into an `IndexMap` in order. -/
def lookupLast {α : Type} (m : List (String × α)) (k : String) : Option α :=
  (m.reverse.find? (fun p => p.1 == k)).map (fun p => p.2)

/-- A trivial parser that consumes nothing and always succeeds, used to
instantiate the combinator theorems at a concrete sub-parser. -/
def unitParse : Parser Unit :=
  ⟨fun _ i => ((), i, none), (), "unit"⟩

/-! ## Lemmas about the `IndexMap` model -/

theorem imGet_nil {α : Type} (k : String) : imGet ([] : List (String × α)) k = none := rfl

theorem imGet_cons {α : Type} (p : String × α) (m : List (String × α)) (k : String) :
    imGet (p :: m) k = if p.1 == k then some p.2 else imGet m k := by
  by_cases h : p.1 == k <;> simp [imGet, List.find?_cons, h]

theorem imGet_append_single {α : Type} (m : List (String × α)) (k k' : String) (v : α)
    (h : m.any (fun p => p.1 == k) = false) :
    imGet (m ++ [(k, v)]) k' = if k' = k then some v else imGet m k' := by
  induction m with
  | nil =>
    rw [List.nil_append, imGet_cons]
    by_cases hk : k' = k
    · subst hk; simp
    · have hb : (k == k') = false := beq_eq_false_iff_ne.mpr (Ne.symm hk)
      simp [hb, hk, imGet_nil]
  | cons p m ih =>
    rw [List.any_cons, Bool.or_eq_false_iff] at h
    rw [List.cons_append, imGet_cons, imGet_cons, ih h.2]
    by_cases hk : k' = k
    · subst hk
      simp [h.1]
    · simp [hk]

theorem imGet_map_replace {α : Type} (m : List (String × α)) (k k' : String) (v : α)
    (hk : k' ≠ k) :
    imGet (m.map (fun p => if p.1 == k then (k, v) else p)) k' = imGet m k' := by
  induction m with
  | nil => rfl
  | cons p m ih =>
    have ih' : imGet (List.map (fun p => if p.1 = k then (k, v) else p) m) k' = imGet m k' := by
      simpa using ih
    cases hp : (p.1 == k) with
    | true =>
      have hpk : p.1 = k := beq_iff_eq.mp hp
      have hkk : ¬(k = k') := fun hh => hk hh.symm
      simp [List.map_cons, imGet_cons, hpk, hkk, ih']
    | false =>
      have hpk : ¬(p.1 = k) := by simpa using hp
      simp [List.map_cons, imGet_cons, hpk, ih']

theorem imGet_map_replace_self {α : Type} (m : List (String × α)) (k : String) (v : α)
    (h : m.any (fun p => p.1 == k) = true) :
    imGet (m.map (fun p => if p.1 == k then (k, v) else p)) k = some v := by
  induction m with
  | nil => simp at h
  | cons p m ih =>
    cases hp : (p.1 == k) with
    | true =>
      have hpk : p.1 = k := beq_iff_eq.mp hp
      simp [List.map_cons, imGet_cons, hpk]
    | false =>
      rw [List.any_cons, hp, Bool.false_or] at h
      have hpk : ¬(p.1 = k) := by simpa using hp
      have ih' : imGet (List.map (fun p => if p.1 = k then (k, v) else p) m) k = some v := by
        simpa using ih h
      simp [List.map_cons, imGet_cons, hpk, ih']

theorem imGet_imInsert {α : Type} (m : List (String × α)) (k k' : String) (v : α) :
    imGet (imInsert m k v) k' = if k' = k then some v else imGet m k' := by
  unfold imInsert
  cases hany : m.any (fun p => p.1 == k) with
  | false =>
    rw [if_neg (by simp [hany])]
    exact imGet_append_single m k k' v hany
  | true =>
    rw [if_pos (by simp [hany])]
    by_cases hk : k' = k
    · subst hk
      rw [if_pos rfl]
      exact imGet_map_replace_self m k' v hany
    · rw [imGet_map_replace m k k' v hk, if_neg hk]

theorem lookupLast_cons {α : Type} (p : String × α) (m : List (String × α)) (k : String) :
    lookupLast (p :: m) k = (lookupLast m k).or (if p.1 == k then some p.2 else none) := by
  unfold lookupLast
  rw [List.reverse_cons, List.find?_append]
  cases hfind : List.find? (fun q => q.1 == k) m.reverse with
  | some q => simp [hfind, Option.or]
  | none =>
    cases hp : (p.1 == k) with
    | true => simp [hfind, List.find?_cons, hp, Option.or]
    | false => simp [hfind, List.find?_cons, hp, Option.or]

theorem lookupLast_eq_imGet {α : Type} (m : List (String × α)) (k : String)
    (h : (m.map Prod.fst).Nodup) : lookupLast m k = imGet m k := by
  induction m with
  | nil => rfl
  | cons p m ih =>
    rw [List.map_cons, List.nodup_cons] at h
    rw [lookupLast_cons, imGet_cons, ih h.2]
    cases hp : (p.1 == k) with
    | true =>
      have hpk : p.1 = k := beq_iff_eq.mp hp
      have hnone : imGet m k = none := by
        unfold imGet
        rw [List.find?_eq_none.mpr, Option.map_none']
        intro x hx hbx
        have hxk : x.1 = k := beq_iff_eq.mp hbx
        exact h.1 (by rw [hpk, ← hxk]; exact List.mem_map_of_mem Prod.fst hx)
      rw [hnone]
      simp [Option.or]
    | false =>
      simp [Option.or_none]

theorem imGet_foldl_insert {α : Type} (entries : List (String × α))
    (out : List (String × α)) (k : String) :
    imGet (entries.foldl (fun out p => imInsert out p.1 p.2) out) k
      = (lookupLast entries k).or (imGet out k) := by
  induction entries generalizing out with
  | nil => simp [lookupLast]
  | cons p rest ih =>
    rw [List.foldl_cons, ih, imGet_imInsert, lookupLast_cons, Option.or_assoc]
    congr 1
    by_cases hk : k = p.1
    · have : (p.1 == k) = true := beq_iff_eq.mpr hk.symm
      simp [hk, this, Option.or]
    · have : (p.1 == k) = false := beq_eq_false_iff_ne.mpr (fun hh => hk hh.symm)
      simp [hk, this, Option.none_or]

theorem imGet_scope_foldl {V C A : Type} (g : ScopeFrame V C → List (String × A))
    (r : List (ScopeFrame V C)) (out : List (String × A)) (k : String) :
    imGet (r.foldl
      (fun out frame => (g frame).foldl (fun out p => imInsert out p.1 p.2) out) out) k
      = (r.reverse.findSome? (fun frame => lookupLast (g frame) k)).or (imGet out k) := by
  induction r generalizing out with
  | nil => simp
  | cons f r ih =>
    rw [List.foldl_cons, ih, List.reverse_cons, List.findSome?_append,
      imGet_foldl_insert, Option.or_assoc]
    congr 1
    cases hl : lookupLast (g f) k <;> simp [List.findSome?_cons, hl, Option.or]

theorem findSome?_lookupLast_eq {V C A : Type} (g : ScopeFrame V C → List (String × A))
    (s : List (ScopeFrame V C)) (k : String)
    (hnd : ∀ f ∈ s, ((g f).map Prod.fst).Nodup) :
    s.findSome? (fun frame => lookupLast (g frame) k)
      = s.findSome? (fun frame => imGet (g frame) k) := by
  induction s with
  | nil => rfl
  | cons f s ih =>
    rw [List.findSome?_cons, List.findSome?_cons,
      lookupLast_eq_imGet _ _ (hnd f (List.mem_cons_self f s))]
    cases imGet (g f) k <;> simp [ih (fun f hf => hnd f (List.mem_cons_of_mem _ hf))]

/-! ## Claim theorems -/

/-- C7: if an outer frame binds `x = v1`, then after `enter_scope()` and
`add_var(x, v2)` the lookup `get_var(x)` returns `v2` (shadowing is total),
and after a subsequent `exit_scope()` it returns `v1` again (the shadowing
is fully undone by popping the frame). -/
theorem c7_shadowing {V C : Type} (s : Scope V C) (x : String) (v1 v2 : V)
    (h : s.get_var x = some v1) :
    ((s.enter_scope).add_var x v2).get_var x = some v2 ∧
    (((s.enter_scope).add_var x v2).exit_scope).get_var x = some v1 := by
  have hadd : (s.enter_scope).add_var x v2
      = s ++ [{ vars := [(x, v2)], env := [], commands := [], aliases := [] }] := by
    unfold Scope.enter_scope Scope.add_var modifyLast
    rw [List.getLast?_concat, List.dropLast_concat]
    rfl
  constructor
  · rw [hadd]
    unfold Scope.get_var
    rw [List.reverse_append]
    simp [List.findSome?_cons, imGet_cons]
  · rw [hadd]
    unfold Scope.exit_scope
    rw [List.dropLast_concat]
    exact h

/-- C7 witness: a concrete scope with `x = 1` in the global frame,
shadowed by `x = 2` and unshadowed again. -/
theorem c7_shadowing_witness :
    Scope.get_var
      (Scope.add_var (Scope.enter_scope ([⟨[("x", 1)], [], [], []⟩] : Scope Nat Unit)) "x" 2)
      "x" = some 2 ∧
    Scope.get_var
      (Scope.exit_scope
        (Scope.add_var (Scope.enter_scope ([⟨[("x", 1)], [], [], []⟩] : Scope Nat Unit)) "x" 2))
      "x" = some 1 :=
  c7_shadowing [⟨[("x", 1)], [], [], []⟩] "x" 1 2 (by rfl)

/-- C8: evaluation of `get_command_names` at the failing input — a scope
whose global frame registers commands `b` then `a` and whose inner frame
registers `b` again.  Because the code calls `dedup()` (which only removes
consecutive duplicates) before `sort()`, the duplicate `b` survives: the
result is sorted but contains `b` twice, contradicting the claim that each
name occurs exactly once. -/
theorem c8_command_names_duplicates :
    Scope.get_command_names (V := Nat) (C := Unit)
      [⟨[], [], [("b", ()), ("a", ())], []⟩, ⟨[], [], [("b", ())], []⟩]
      = ["a", "b", "b"] ∧
    ¬ (Scope.get_command_names (V := Nat) (C := Unit)
      [⟨[], [], [("b", ()), ("a", ())], []⟩, ⟨[], [], [("b", ())], []⟩]).Nodup := by
  constructor <;> decide

/-- C9: in the merged map returned by `get_vars` (and likewise
`get_env_vars`) a name bound in several frames is mapped to the outermost
frame's value, because frames are merged innermost-to-outermost with later
inserts overwriting earlier ones; for such a name the merged map disagrees
with `get_var`, which returns the innermost binding.  (The key-uniqueness
hypotheses are the `IndexMap` invariant.) -/
theorem c9_merged_vars_outermost {V C : Type} (s : Scope V C) (x : String)
    (vIn vOut : V)
    (hnd : ∀ f ∈ s, ((ScopeFrame.vars f).map Prod.fst).Nodup)
    (hnde : ∀ f ∈ s, ((ScopeFrame.env f).map Prod.fst).Nodup) :
    imGet (s.get_vars) x = outermostVar s x ∧
    imGet (s.get_env_vars) x = outermostEnvVar s x ∧
    (s.get_var x = some vIn → outermostVar s x = some vOut → vIn ≠ vOut →
      imGet (s.get_vars) x ≠ s.get_var x) := by
  have h1 : imGet (s.get_vars) x = outermostVar s x := by
    unfold Scope.get_vars outermostVar
    rw [imGet_scope_foldl (fun f => f.vars) s.reverse [] x, List.reverse_reverse,
      imGet_nil, Option.or_none]
    exact findSome?_lookupLast_eq (fun f => f.vars) s x hnd
  have h2 : imGet (s.get_env_vars) x = outermostEnvVar s x := by
    unfold Scope.get_env_vars outermostEnvVar
    rw [imGet_scope_foldl (fun f => f.env) s.reverse [] x, List.reverse_reverse,
      imGet_nil, Option.or_none]
    exact findSome?_lookupLast_eq (fun f => f.env) s x hnde
  refine ⟨h1, h2, ?_⟩
  intro hin hout hne
  rw [h1, hout, hin]
  intro hcontra
  exact hne (Option.some.inj hcontra).symm

/-- C9 witness: a two-frame scope binding `x` to `1` (outer) and `2`
(inner) and `e` to `"a"` (outer) and `"b"` (inner): the merged maps return
the outermost values while `get_var` returns the innermost one. -/
theorem c9_merged_vars_outermost_witness :
    imGet (Scope.get_vars ([⟨[("x", 1)], [("e", "a")], [], []⟩,
        ⟨[("x", 2)], [("e", "b")], [], []⟩] : Scope Nat Unit)) "x"
      = outermostVar ([⟨[("x", 1)], [("e", "a")], [], []⟩, ⟨[("x", 2)], [("e", "b")], [], []⟩]
        : Scope Nat Unit) "x" ∧
    imGet (Scope.get_env_vars ([⟨[("x", 1)], [("e", "a")], [], []⟩,
        ⟨[("x", 2)], [("e", "b")], [], []⟩] : Scope Nat Unit)) "x"
      = outermostEnvVar ([⟨[("x", 1)], [("e", "a")], [], []⟩, ⟨[("x", 2)], [("e", "b")], [], []⟩]
        : Scope Nat Unit) "x" ∧
    (Scope.get_var ([⟨[("x", 1)], [("e", "a")], [], []⟩,
        ⟨[("x", 2)], [("e", "b")], [], []⟩] : Scope Nat Unit) "x" = some 2 →
      outermostVar ([⟨[("x", 1)], [("e", "a")], [], []⟩, ⟨[("x", 2)], [("e", "b")], [], []⟩]
        : Scope Nat Unit) "x" = some 1 →
      (2 : Nat) ≠ 1 →
      imGet (Scope.get_vars ([⟨[("x", 1)], [("e", "a")], [], []⟩,
          ⟨[("x", 2)], [("e", "b")], [], []⟩] : Scope Nat Unit)) "x"
        ≠ Scope.get_var ([⟨[("x", 1)], [("e", "a")], [], []⟩,
          ⟨[("x", 2)], [("e", "b")], [], []⟩] : Scope Nat Unit) "x") :=
  c9_merged_vars_outermost
    [⟨[("x", 1)], [("e", "a")], [], []⟩, ⟨[("x", 2)], [("e", "b")], [], []⟩] "x" 2 1
    (by decide) (by decide)

/-- C4: `Maybe<P>` never returns an error, and it returns `(none, i, none)`
exactly when the wrapped parser returned an error — in particular it never
advances the index when the wrapped parser internally fails. -/
theorem c4_maybe_never_errors {α : Type} (p : Parser α) (tokens : List Token) (i : Nat) :
    ((Maybe p).run tokens i).2.2 = none ∧
    ((Maybe p).run tokens i = (none, i, none) ↔ ((p.run tokens i).2.2).isSome = true) := by
  unfold Maybe
  rcases hrun : p.run tokens i with ⟨v, new_i, error⟩
  cases error with
  | none => simp [hrun]
  | some e => simp [hrun]

/-- C5: parsing the signature literal `[x, y?: int]` yields a signature
with exactly two positional entries in declaration order: `x` mandatory
with shape `Any` (omitted type defaults to `Any`) and `y` optional with
shape `Int`. -/
theorem c5_parse_signature_example :
    parse_signature "sig" ⟨"[x, y?: int]", ⟨0, 12⟩⟩
      = some ({ name := "sig",
                positional := [(PositionalType.Mandatory "x" SyntaxShape.Any, ""),
                               (PositionalType.Optional "y" SyntaxShape.Int, "")],
                rest_positional := none,
                named := [] }, none) := by
  rfl

/-- C6 counterexample: on the input `[-x]` — a flag-classified token that
the long-flag production rejects without consuming — every iteration of the
`while i < tokens.len()` walk leaves the cursor unchanged, so the Rust loop
never terminates (modelled as `none`); `parse_signature` is therefore not
total on malformed input, contrary to the claim. -/
theorem c6_walk_divergence_counterexample :
    parse_signature "f" ⟨"[-x]", ⟨0, 4⟩⟩ = none := by
  rfl

theorem bindLoopGo_isSome {V : Type} (positional : List V)
    (sigPos : List (PositionalType × String)) :
    ∀ (idx : Nat) (vars : List (String × V)), idx + sigPos.length ≤ positional.length →
    (bindLoopGo positional sigPos idx vars).isSome := by
  induction sigPos with
  | nil =>
    intro idx vars _
    simp [bindLoopGo]
  | cons pd rest ih =>
    intro idx vars h
    rcases pd with ⟨pt, d⟩
    have hidx : idx < positional.length := by
      rw [List.length_cons] at h
      omega
    simp only [bindLoopGo, List.get?_eq_getElem?, List.getElem?_eq_getElem hidx]
    exact ih (idx + 1) _ (by rw [List.length_cons] at h; omega)

/-- C10: in `AliasCommand::run`, every access `positional[idx]` for
`idx < sig.positional.len()` is in bounds (and the rest-parameter slice is
already bounds-guarded), so under the precondition that the supplied
positional list is at least as long as the signature's positional list the
binding section cannot panic. -/
theorem c10_positional_in_bounds {V : Type} (sig : Signature) (positional : List V)
    (mkTable : List V → V) (vars : List (String × V))
    (h : sig.positional.length ≤ positional.length) :
    (AliasCommand.bindPositional sig positional mkTable vars).isSome := by
  unfold AliasCommand.bindPositional
  have hloop := bindLoopGo_isSome positional sig.positional 0 vars (by omega)
  cases hmatch : bindLoopGo positional sig.positional 0 vars with
  | none => rw [hmatch] at hloop; simp at hloop
  | some vars' =>
    cases hrest : sig.rest_positional with
    | none => simp [hmatch, hrest]
    | some rd =>
      rcases rd with ⟨ty, desc⟩
      by_cases hlt : sig.positional.length < positional.length <;>
        simp [hmatch, hrest, hlt]

/-- C10 witness: a one-parameter alias signature applied to a one-element
positional list. -/
theorem c10_positional_in_bounds_witness :
    (AliasCommand.bindPositional (V := Nat)
      ⟨"l", [(PositionalType.Mandatory "$x" SyntaxShape.Any, "")], none, []⟩
      [5] (fun _ => 0) []).isSome :=
  c10_positional_in_bounds
    ⟨"l", [(PositionalType.Mandatory "$x" SyntaxShape.Any, "")], none, []⟩
    [5] (fun _ => 0) [] (by decide)

theorem processArgsGo_vararg_error :
    ∀ (l : List ValueItem) (orig_len idx i : Nat) (item : ValueItem) (s : String),
    l[i]? = some item → item.as_string = some s → is_var_arg s = true →
    idx + i + 1 ≠ orig_len →
    (∀ j itm, j < i → l[j]? = some itm →
      ∃ sj, itm.as_string = some sj ∧ is_var_arg sj = false) →
    processArgsGo orig_len idx l =
      .error (.labeled "Var-args variables are only allowed as the last argument!"
        "Var-arg" item.span) := by
  intro l
  induction l with
  | nil =>
    intro orig_len idx i item s hget _ _ _ _
    simp at hget
  | cons hd tl ih =>
    intro orig_len idx i item s hget hs hva hlen hbefore
    cases i with
    | zero =>
      rw [List.getElem?_cons_zero] at hget
      obtain rfl : hd = item := Option.some.inj hget
      have hlen' : idx + 1 ≠ orig_len := by omega
      simp only [processArgsGo, hs, hva, if_true]
      rw [if_pos hlen']
    | succ i' =>
      rw [List.getElem?_cons_succ] at hget
      obtain ⟨s0, hs0, hva0⟩ :=
        hbefore 0 hd (Nat.succ_pos i') (by rw [List.getElem?_cons_zero])
      simp only [processArgsGo, hs0, hva0, Bool.false_eq_true, if_false]
      rw [ih orig_len (idx + 1) i' item s hget hs hva (by omega)
        (fun j itm hj hjget =>
          hbefore (j + 1) itm (by omega) (by rw [List.getElem?_cons_succ]; exact hjget))]
      rfl

/-- C2: if an alias declares a var-arg parameter (name ending in `...`) in
any position other than the last — with every earlier declared parameter a
plain (string, non-var-arg) name, so the misplaced var-arg is the first
offending item the processing loop meets — the alias definition fails with
the labeled `Var-arg` error at the offending item's span, whatever the
deduction pass would have returned; in particular no `AddAlias` action is
emitted. -/
theorem c2_vararg_not_last_errors (name : String) (list : List ValueItem)
    (infer : List VarDeclaration →
      Except ShellError (List (VarDeclaration × Option (List VarShapeDeduction))))
    (i : Nat) (item : ValueItem) (s : String)
    (hget : list[i]? = some item) (hs : item.as_string = some s)
    (hva : is_var_arg s = true) (hlast : i + 1 ≠ list.length)
    (hbefore : ∀ j itm, j < i → list[j]? = some itm →
      ∃ sj, itm.as_string = some sj ∧ is_var_arg sj = false) :
    aliasCmd name list infer = some (.error (.labeled
      "Var-args variables are only allowed as the last argument!" "Var-arg" item.span)) := by
  unfold aliasCmd processArgs
  rw [processArgsGo_vararg_error list list.length 0 i item s hget hs hva
    (by omega) hbefore]

/-- C2 witness: `alias l [a..., b] ...` — the var-arg `a...` is declared
first of two, so the definition errors at its span for every deduction
outcome. -/
theorem resolveAll_spec :
    ∀ (ds : List (VarDeclaration × Option (List VarShapeDeduction)))
      (rs : List (VarDeclaration × VarShapeDeduction)),
    resolveAll ds = some rs →
    rs.length = ds.length ∧
    ∀ (i : Nat) (e : VarDeclaration × Option (List VarShapeDeduction)),
      ds[i]? = some e → ∃ r, rs[i]? = some r ∧ resolveEntry e = some r := by
  intro ds
  induction ds with
  | nil =>
    intro rs h
    simp only [resolveAll] at h
    obtain rfl : ([] : List (VarDeclaration × VarShapeDeduction)) = rs := Option.some.inj h
    exact ⟨rfl, fun i e he => by simp at he⟩
  | cons e ds ih =>
    intro rs h
    simp only [resolveAll] at h
    cases hre : resolveEntry e with
    | none => simp only [hre] at h; exact Option.noConfusion h
    | some r =>
      cases hra : resolveAll ds with
      | none => simp only [hre, hra] at h; exact Option.noConfusion h
      | some rs' =>
        simp only [hre, hra] at h
        obtain rfl : r :: rs' = rs := Option.some.inj h
        obtain ⟨hlen, hspec⟩ := ih rs' hra
        constructor
        · simp [hlen]
        · intro i e' he'
          cases i with
          | zero =>
            rw [List.getElem?_cons_zero] at he'
            obtain rfl : e = e' := Option.some.inj he'
            exact ⟨r, by rw [List.getElem?_cons_zero], hre⟩
          | succ i' =>
            rw [List.getElem?_cons_succ] at he'
            obtain ⟨r', hr'⟩ := hspec i' e' he'
            exact ⟨r', by rw [List.getElem?_cons_succ]; exact hr'.1, hr'.2⟩

theorem resolveEntry_shape (decl : VarDeclaration) (deduc : List VarShapeDeduction)
    (hne : deduc ≠ []) (r : VarDeclaration × VarShapeDeduction)
    (h : resolveEntry (decl, some deduc) = some r) :
    r.1 = decl ∧ r.2.deduction = precedenceShape deduc := by
  simp only [resolveEntry] at h
  cases hfa : deduc.find? (fun d => d.deduction == SyntaxShape.Any) with
  | some a =>
    simp only [hfa] at h
    obtain rfl : r = (decl, a) := (Option.some.inj h).symm
    have hpa : (a.deduction == SyntaxShape.Any) = true := by
      simpa using List.find?_some hfa
    have ha : a.deduction = SyntaxShape.Any := by simpa using hpa
    have hany : deduc.any (fun d => d.deduction == SyntaxShape.Any) = true :=
      List.any_eq_true.mpr ⟨a, List.mem_of_find?_eq_some hfa, hpa⟩
    refine ⟨rfl, ?_⟩
    show a.deduction = precedenceShape deduc
    unfold precedenceShape
    rw [if_pos hany]
    exact ha
  | none =>
    have hnotany : deduc.any (fun d => d.deduction == SyntaxShape.Any) = false :=
      List.any_eq_false.mpr (List.find?_eq_none.mp hfa)
    simp only [hfa] at h
    cases hfm : deduc.find? (fun d => d.deduction == SyntaxShape.Math) with
    | some m =>
      simp only [hfm] at h
      obtain rfl : r = (decl, m) := (Option.some.inj h).symm
      have hpm : (m.deduction == SyntaxShape.Math) = true := by
        simpa using List.find?_some hfm
      have hm : m.deduction = SyntaxShape.Math := by simpa using hpm
      have hanym : deduc.any (fun d => d.deduction == SyntaxShape.Math) = true :=
        List.any_eq_true.mpr ⟨m, List.mem_of_find?_eq_some hfm, hpm⟩
      refine ⟨rfl, ?_⟩
      show m.deduction = precedenceShape deduc
      unfold precedenceShape
      rw [if_neg (by simp [hnotany]), if_pos hanym]
      exact hm
    | none =>
      have hnotanym : deduc.any (fun d => d.deduction == SyntaxShape.Math) = false :=
        List.any_eq_false.mpr (List.find?_eq_none.mp hfm)
      obtain ⟨d0, rest, rfl⟩ := List.exists_cons_of_ne_nil hne
      simp only [hfm, List.head?_cons] at h
      obtain rfl : r = (decl, d0) := (Option.some.inj h).symm
      refine ⟨rfl, ?_⟩
      show d0.deduction = precedenceShape (d0 :: rest)
      unfold precedenceShape
      rw [if_neg (by simp [hnotany]), if_neg (by simp [hnotanym])]
      simp

/-- C1: for every alias parameter with at least one recorded
`VarShapeDeduction`, the shape placed in the generated signature (its
positional entry, or the rest slot when the parameter is the trailing
var-arg) follows the precedence `Any` over `Math` over the first recorded
deduction in source-scan order. -/
theorem c1_deduction_precedence (cmd_name : String)
    (deductions : List (VarDeclaration × Option (List VarShapeDeduction)))
    (i : Nat) (decl : VarDeclaration) (deduc : List VarShapeDeduction) (sig : Signature)
    (hget : deductions[i]? = some (decl, some deduc)) (hne : deduc ≠ [])
    (hsig : DeductionToSignature.get cmd_name deductions = some sig) :
    if i + 1 = deductions.length ∧ decl.is_var_arg = true then
      sig.rest_positional = some (precedenceShape deduc, decl.name)
    else
      sig.positional[i]?
        = some (PositionalType.Mandatory decl.name (precedenceShape deduc), "") := by
  unfold DeductionToSignature.get at hsig
  cases hra : resolveAll deductions with
  | none => rw [hra] at hsig; simp at hsig
  | some resolved =>
    simp only [hra] at hsig
    obtain ⟨hlen, hspec⟩ := resolveAll_spec deductions resolved hra
    obtain ⟨r, hrget, hre⟩ := hspec i (decl, some deduc) hget
    obtain ⟨hr1, hr2⟩ := resolveEntry_shape decl deduc hne r hre
    have hilen : i < deductions.length := by
      rcases List.getElem?_eq_some.mp hget with ⟨hh, _⟩
      exact hh
    cases hlast : resolved.getLast? with
    | none =>
      rw [List.getLast?_eq_none_iff] at hlast
      rw [hlast] at hlen
      simp at hlen
      omega
    | some last_arg =>
      have hlastget : resolved[resolved.length - 1]? = some last_arg := by
        rw [← List.getLast?_eq_getElem?]
        exact hlast
      have hrlast : i + 1 = deductions.length → r = last_arg := by
        intro heq
        have hi : i = resolved.length - 1 := by omega
        rw [hi] at hrget
        rw [hrget] at hlastget
        exact Option.some.inj hlastget
      simp only [hlast] at hsig
      cases hvar : last_arg.1.is_var_arg with
      | true =>
        simp only [hvar, if_true] at hsig
        obtain rfl : Signature.rest
            { Signature.build cmd_name with
              positional := (resolved.map (fun rd =>
                (PositionalType.mandatory rd.1.name rd.2.deduction, ""))).dropLast }
            last_arg.2.deduction last_arg.1.name = sig := Option.some.inj hsig
        by_cases hc : i + 1 = deductions.length ∧ decl.is_var_arg = true
        · rw [if_pos hc]
          have hrl : r = last_arg := hrlast hc.1
          rw [← hrl]
          simp [Signature.rest, hr1, hr2]
        · rw [if_neg hc]
          have hne1 : i + 1 ≠ deductions.length := by
            intro heq
            apply hc
            refine ⟨heq, ?_⟩
            rw [← hr1, hrlast heq]
            exact hvar
          simp only [Signature.rest]
          rw [List.dropLast_eq_take, List.getElem?_take,
            if_pos (by rw [List.length_map]; omega), List.getElem?_map, hrget]
          simp [PositionalType.mandatory, hr1, hr2]
      | false =>
        simp only [hvar, Bool.false_eq_true, if_false] at hsig
        obtain rfl : ({ Signature.build cmd_name with
            positional := resolved.map (fun rd =>
              (PositionalType.mandatory rd.1.name rd.2.deduction, "")) } : Signature)
            = sig := Option.some.inj hsig
        have hcfalse : ¬(i + 1 = deductions.length ∧ decl.is_var_arg = true) := by
          rintro ⟨heq, hdv⟩
          rw [← hr1, hrlast heq, hvar] at hdv
          exact absurd hdv (by simp)
        rw [if_neg hcfalse]
        show (resolved.map (fun rd =>
          (PositionalType.mandatory rd.1.name rd.2.deduction, "")))[i]? = _
        rw [List.getElem?_map, hrget]
        simp [PositionalType.mandatory, hr1, hr2]

/-- C1 witness: a single parameter `$x` used once where `Int` is expected
and once where `Any` is expected resolves to `Any` in the generated
signature's positional entry. -/
theorem c1_deduction_precedence_witness :
    if (0 : Nat) + 1
        = ([((⟨"$x", false, ⟨0, 0⟩⟩ : VarDeclaration),
            some [⟨SyntaxShape.Int, [⟨1, 2⟩], false⟩,
                  ⟨SyntaxShape.Any, [⟨3, 4⟩], false⟩])]
           : List (VarDeclaration × Option (List VarShapeDeduction))).length
        ∧ (⟨"$x", false, ⟨0, 0⟩⟩ : VarDeclaration).is_var_arg = true then
      ({ name := "l",
         positional := [(PositionalType.Mandatory "$x" SyntaxShape.Any, "")],
         rest_positional := none, named := [] } : Signature).rest_positional
        = some (precedenceShape
            [⟨SyntaxShape.Int, [⟨1, 2⟩], false⟩, ⟨SyntaxShape.Any, [⟨3, 4⟩], false⟩],
          (⟨"$x", false, ⟨0, 0⟩⟩ : VarDeclaration).name)
    else
      ({ name := "l",
         positional := [(PositionalType.Mandatory "$x" SyntaxShape.Any, "")],
         rest_positional := none, named := [] } : Signature).positional[(0 : Nat)]?
        = some (PositionalType.Mandatory (⟨"$x", false, ⟨0, 0⟩⟩ : VarDeclaration).name
            (precedenceShape
              [⟨SyntaxShape.Int, [⟨1, 2⟩], false⟩, ⟨SyntaxShape.Any, [⟨3, 4⟩], false⟩]),
          "") :=
  c1_deduction_precedence "l"
    [((⟨"$x", false, ⟨0, 0⟩⟩ : VarDeclaration),
      some [⟨SyntaxShape.Int, [⟨1, 2⟩], false⟩, ⟨SyntaxShape.Any, [⟨3, 4⟩], false⟩])]
    0 ⟨"$x", false, ⟨0, 0⟩⟩
    [⟨SyntaxShape.Int, [⟨1, 2⟩], false⟩, ⟨SyntaxShape.Any, [⟨3, 4⟩], false⟩]
    { name := "l",
      positional := [(PositionalType.Mandatory "$x" SyntaxShape.Any, "")],
      rest_positional := none, named := [] }
    (by rfl) (by decide) (by rfl)

theorem c2_vararg_not_last_errors_witness :
    aliasCmd "l" [⟨some "a...", ⟨7, 11⟩⟩, ⟨some "b", ⟨13, 14⟩⟩] (fun _ => .ok [])
      = some (.error (.labeled "Var-args variables are only allowed as the last argument!"
          "Var-arg" ⟨7, 11⟩)) :=
  c2_vararg_not_last_errors "l" [⟨some "a...", ⟨7, 11⟩⟩, ⟨some "b", ⟨13, 14⟩⟩]
    (fun _ => .ok []) 0 ⟨some "a...", ⟨7, 11⟩⟩ "a..." (by rfl) (by rfl) (by decide)
    (by decide) (fun j itm hj _ => absurd hj (Nat.not_lt_zero j))

theorem monotone_Expect {α : Type} (p : Parser α) (hp : Monotone p) :
    Monotone (Expect p) := by
  intro tokens i h
  by_cases hi : i < tokens.length
  · have heq : (Expect p).run tokens i = p.run tokens i := by simp [Expect, hi]
    rw [heq]
    exact hp tokens i h
  · have heq : ((Expect p).run tokens i).2.1 = i := by simp [Expect, hi]
    rw [heq]
    exact ⟨Nat.le_refl i, h⟩

theorem monotone_Maybe {α : Type} (p : Parser α) (hp : Monotone p) :
    Monotone (Maybe p) := by
  intro tokens i h
  rcases hrun : p.run tokens i with ⟨v, ni, err⟩
  have hni := hp tokens i h
  rw [hrun] at hni
  cases err with
  | none =>
    have heq : (Maybe p).run tokens i = (some v, ni, none) := by simp [Maybe, hrun]
    rw [heq]
    exact hni
  | some e =>
    have heq : (Maybe p).run tokens i = (none, i, none) := by simp [Maybe, hrun]
    rw [heq]
    exact ⟨Nat.le_refl i, h⟩

theorem monotone_AndThen {α β : Type} (p : Parser α) (q : Parser β)
    (hp : Monotone p) (hq : Monotone q) : Monotone (AndThen p q) := by
  intro tokens i h
  rcases hrun1 : p.run tokens i with ⟨a, i1, e1⟩
  have h1 := hp tokens i h
  rw [hrun1] at h1
  rcases hrun2 : q.run tokens i1 with ⟨b, i2, e2⟩
  have h2 := hq tokens i1 h1.2
  rw [hrun2] at h2
  have heq : (AndThen p q).run tokens i = ((a, b), i2, e1.or e2) := by
    simp [AndThen, hrun1, hrun2]
  rw [heq]
  exact ⟨Nat.le_trans h1.1 h2.1, h2.2⟩

theorem monotone_Discard {α : Type} (p : Parser α) (hp : Monotone p) :
    Monotone (Discard p) := by
  intro tokens i h
  rcases hrun : p.run tokens i with ⟨v, ni, err⟩
  have hni := hp tokens i h
  rw [hrun] at hni
  have heq : (Discard p).run tokens i = ((), ni, err) := by simp [Discard, hrun]
  rw [heq]
  exact hni

theorem monotone_IfSuccessThen {α β : Type} (p : Parser α) (q : Parser β)
    (hp : Monotone p) (hq : Monotone q) : Monotone (IfSuccessThen p q) := by
  intro tokens i h
  rcases hrun : (Maybe p).run tokens i with ⟨tv, ni, et⟩
  have h1 := monotone_Maybe p hp tokens i h
  rw [hrun] at h1
  cases tv with
  | none =>
    have heq : (IfSuccessThen p q).run tokens i = (none, i, none) := by
      simp [IfSuccessThen, hrun]
    rw [heq]
    exact ⟨Nat.le_refl i, h⟩
  | some v =>
    rcases hrun2 : (Expect q).run tokens ni with ⟨b, ni2, e2⟩
    have h2 := monotone_Expect q hq tokens ni h1.2
    rw [hrun2] at h2
    have heq : (IfSuccessThen p q).run tokens i = (some (v, b), ni2, et.or e2) := by
      simp [IfSuccessThen, hrun, hrun2]
    rw [heq]
    exact ⟨Nat.le_trans h1.1 h2.1, h2.2⟩

theorem errStable_Expect {α : Type} (p : Parser α) (hp : ErrStable p) :
    ErrStable (Expect p) := by
  intro tokens i herr
  by_cases hi : i < tokens.length
  · have heq : (Expect p).run tokens i = p.run tokens i := by simp [Expect, hi]
    rw [heq] at herr ⊢
    exact hp tokens i herr
  · simp [Expect, hi]

/-- C3: every combinator preserves the cursor invariant — from a valid
index `i ≤ len(t)` it returns an index `i' ≥ i` (still valid) provided its
sub-parsers do — and `Expect` preserves the base contract that an error is
returned together with the unchanged input index `i` (and produces its own
unexpected-end-of-input error without consuming anything). -/
theorem c3_combinator_cursor_monotone {α β : Type} (p : Parser α) (q : Parser β)
    (hp : Monotone p) (hq : Monotone q) :
    Monotone (Expect p) ∧ Monotone (Maybe p) ∧ Monotone (AndThen p q) ∧
    Monotone (IfSuccessThen p q) ∧ Monotone (Discard p) ∧
    (ErrStable p → ErrStable (Expect p)) :=
  ⟨monotone_Expect p hp, monotone_Maybe p hp, monotone_AndThen p q hp hq,
   monotone_IfSuccessThen p q hp hq, monotone_Discard p hp,
   fun hs => errStable_Expect p hs⟩

/-- C3 witness: the combinator invariants instantiated at a concrete
sub-parser. -/
theorem c3_combinator_cursor_monotone_witness :
    Monotone (Expect unitParse) ∧ Monotone (Maybe unitParse) ∧
    Monotone (AndThen unitParse unitParse) ∧
    Monotone (IfSuccessThen unitParse unitParse) ∧ Monotone (Discard unitParse) ∧
    (ErrStable unitParse → ErrStable (Expect unitParse)) :=
  c3_combinator_cursor_monotone unitParse unitParse
    (fun _ i h => ⟨Nat.le_refl i, h⟩) (fun _ i h => ⟨Nat.le_refl i, h⟩)

theorem or_toList_head {α : Type} (err error : Option α) (l : List α) :
    (err.or error).or l.head? = err.or (error.toList ++ l).head? := by
  cases err <;> cases error <;> simp [Option.or]

theorem sigLoopGo_walkErrors (tokens : List Token) :
    ∀ (fuel i : Nat) (parameters : List Parameter) (flags : List Flag)
      (rest : Option (SyntaxShape × String)) (err : Option ParseError)
      (res : List Parameter × List Flag × Option (SyntaxShape × String) × Option ParseError),
    sigLoopGo tokens fuel i parameters flags rest err = some res →
    ∃ l, sigWalkErrors tokens fuel i = some l ∧ res.2.2.2 = err.or l.head? := by
  intro fuel
  induction fuel with
  | zero =>
    intro i p f r err res h
    simp [sigLoopGo] at h
  | succ fuel ih =>
    intro i p f r err res h
    rw [sigLoopGo] at h
    rw [sigWalkErrors]
    by_cases hi : i < tokens.length
    · rw [dif_pos hi] at h
      rw [dif_pos hi]
      cases heol : (tokens.get ⟨i, hi⟩).contents.is_eol with
      | true =>
        rw [if_pos heol] at h
        rw [if_pos heol]
        exact ih (i + 1) p f r err res h
      | false =>
        rw [if_neg (by simpa using heol)] at h
        rw [if_neg (by simpa using heol)]
        cases hflag : is_flag (tokens.get ⟨i, hi⟩) with
        | true =>
          rw [if_pos hflag] at h
          rw [if_pos (Eq.refl true)]
          rcases hrun : Flag.parse.run tokens i with ⟨flag, i_new, error⟩
          simp only [hrun] at h ⊢
          by_cases hlt : i < i_new
          · rw [if_pos hlt] at h ⊢
            obtain ⟨l', hl', hres⟩ := ih i_new p (f ++ [flag]) r (err.or error) res h
            refine ⟨error.toList ++ l', ?_, ?_⟩
            · rw [hl']; rfl
            · rw [hres, or_toList_head]
          · rw [if_neg hlt] at h
            exact Option.noConfusion h
        | false =>
          rw [if_neg (by simpa using hflag)] at h
          rw [if_neg (by simp)]
          cases hrest : is_rest (tokens.get ⟨i, hi⟩) with
          | true =>
            rw [if_pos hrest] at h
            rw [if_pos (Eq.refl true)]
            rcases hrun : Rest.parse.run tokens i with ⟨rest_, i_new, error⟩
            simp only [hrun] at h ⊢
            by_cases hlt : i < i_new
            · rw [if_pos hlt] at h ⊢
              obtain ⟨l', hl', hres⟩ := ih i_new p f (some rest_) (err.or error) res h
              refine ⟨error.toList ++ l', ?_, ?_⟩
              · rw [hl']; rfl
              · rw [hres, or_toList_head]
            · rw [if_neg hlt] at h
              exact Option.noConfusion h
          | false =>
            rw [if_neg (by simpa using hrest)] at h
            rw [if_neg (by simp)]
            rcases hrun : Parameter.parse.run tokens i with ⟨parameter, i_new, error⟩
            simp only [hrun] at h ⊢
            by_cases hlt : i < i_new
            · rw [if_pos hlt] at h ⊢
              obtain ⟨l', hl', hres⟩ := ih i_new (p ++ [parameter]) f r (err.or error) res h
              refine ⟨error.toList ++ l', ?_, ?_⟩
              · rw [hl']; rfl
              · rw [hres, or_toList_head]
            · rw [if_neg hlt] at h
              exact Option.noConfusion h
    · rw [dif_neg hi] at h
      rw [dif_neg hi]
      obtain rfl : (p, f, r, err) = res := Option.some.inj h
      exact ⟨[], rfl, by simp [Option.or_none]⟩

/-- C6 amended theorem: whenever the walk terminates, `parse_signature`
returns a best-effort signature paired with the first error encountered —
the pre-walk (bracket/lexer) error if any, otherwise the head of the list
of all sub-parser errors met during the walk, which the walk records while
still running every later iteration (no failure stops it). -/
theorem c6_first_error_reported (name : String) (signature_vec : Spanned String)
    (res : Signature × Option ParseError)
    (h : parse_signature name signature_vec = some res) :
    ∃ l, sigWalkErrors (sigTokens signature_vec)
        ((sigTokens signature_vec).length + 1) 0 = some l ∧
      res.2 = (sigInitialErr signature_vec).or l.head? := by
  unfold parse_signature at h
  cases hloop : sigLoopGo (sigTokens signature_vec)
      ((sigTokens signature_vec).length + 1) 0 [] [] none
      (sigInitialErr signature_vec) with
  | none =>
    simp only [hloop] at h
    exact Option.noConfusion h
  | some r4 =>
    rcases r4 with ⟨parameters, flags, rest, e⟩
    simp only [hloop] at h
    obtain rfl : (to_signature name parameters flags rest, e) = res := by simpa using h
    obtain ⟨l, hl, hres⟩ := sigLoopGo_walkErrors (sigTokens signature_vec)
      ((sigTokens signature_vec).length + 1) 0 [] [] none
      (sigInitialErr signature_vec) (parameters, flags, rest, e) hloop
    exact ⟨l, hl, hres⟩

/-- C6 amended witness: on `[x:,y:]` two sub-parser errors occur (a missing
shape after each `:`); the walk keeps going past the first, both parameters
still reach the signature, and the reported error is the first of the
recorded list. -/
theorem c6_first_error_reported_witness :
    ∃ l, sigWalkErrors (sigTokens ⟨"[x:,y:]", ⟨0, 7⟩⟩)
        ((sigTokens ⟨"[x:,y:]", ⟨0, 7⟩⟩).length + 1) 0 = some l ∧
      (({ name := "f",
          positional := [(PositionalType.Mandatory "x" SyntaxShape.Any, ""),
                         (PositionalType.Mandatory "y" SyntaxShape.Any, "")],
          rest_positional := none, named := [] },
        some (ParseError.mismatch "shape" ⟨",", ⟨3, 4⟩⟩)) :
          Signature × Option ParseError).2
        = (sigInitialErr ⟨"[x:,y:]", ⟨0, 7⟩⟩).or l.head? :=
  c6_first_error_reported "f" ⟨"[x:,y:]", ⟨0, 7⟩⟩
    ({ name := "f",
       positional := [(PositionalType.Mandatory "x" SyntaxShape.Any, ""),
                      (PositionalType.Mandatory "y" SyntaxShape.Any, "")],
       rest_positional := none, named := [] },
     some (ParseError.mismatch "shape" ⟨",", ⟨3, 4⟩⟩)) (by rfl)

end Nu
